import Mathlib

/-!
Verification of the bounded-memory time-indexed field store (`OneSpaceField`,
src/field.py) and of the simulation driver loop (`Simulation.run`,
src/simulation.py) of the quantum-string repository.

Field values are embedded as rationals; a stored matrix is a list of rows.
Machine behaviour that matters here and is modelled faithfully:
  * NumPy 2-D shape detection (`npShape2D`): a list of lists is a 2-D matrix
    exactly when it is non-empty and rectangular (zero-width rows allowed,
    as `np.array([[],[]])` has shape `(2, 0)`).
  * Python / NumPy indexing (`pyRow`, column access): a negative index `i`
    addresses `length + i`; an index out of `[-length, length)` raises
    `IndexError`.
  * `np.vstack` raises when the appended row's length differs from the
    matrix width; `np.delete(a, 0, 0)` drops the first row.
  * In `OneSpaceField.update` the `_last_tstep` increment happens before the
    `vstack` call, so a failing append leaves the counter incremented.
Errors are an explicit inductive (`PyErr`); the two distinct construction
`ValueError`s, the retention `ValueError`, NumPy's `IndexError` and the
`vstack` shape error are separate constructors.
-/

namespace QuantumString

/-- Error taxonomy of the embedded code.  `configMemory` is the
`ValueError` for `memory < 3`; `configMatrix` the `ValueError` re-raised by
the bare `except:` in the constructor; `retention` the `ValueError` of
`get_val_time`; `indexError` NumPy's `IndexError`; `shapeMismatch` the
`ValueError` raised by `np.vstack` on a row of the wrong length. -/
inductive PyErr where
  | configMemory
  | configMatrix
  | retention
  | indexError
  | shapeMismatch
deriving DecidableEq, Repr

/-- State of a `OneSpaceField` object: the stored matrix `val`, the absolute
time counter `_last_tstep` and the retention bound `memory`
(the claims only concern finite integer bounds, so `memory : ℕ`). -/
structure OneSpaceField where
  val : List (List ℚ)
  _last_tstep : ℕ
  memory : ℕ
deriving DecidableEq, Repr

/-- Shape of `np.array` applied to a list of lists, when the result is a
2-D matrix: `some (rows, cols)` for a non-empty rectangular input (rows of
length zero allowed), `none` otherwise (empty input gives shape `(0,)`,
ragged input an object array of shape `(n,)` or a conversion error --
either way tuple unpacking of the shape fails). -/
def npShape2D (a : List (List ℚ)) : Option (ℕ × ℕ) :=
  match a with
  | [] => none
  | r :: rs =>
    if rs.all (fun s => s.length = r.length) then some (rs.length + 1, r.length)
    else none

/-- `OneSpaceField.__init__(init_val, memory)`.  Checks `memory < 3` first;
then unpacks `init_val.shape` into `(x, y)` (failure of the unpacking, or
the inner `x <= 0` check, is swallowed by the bare `except:` and re-raised
as `configMatrix`); on success stores a copy of `init_val` and sets
`_last_tstep = x - 1`. -/
def OneSpaceField.init (init_val : List (List ℚ)) (memory : ℕ) :
    Except PyErr OneSpaceField :=
  if memory < 3 then .error .configMemory
  else
    match npShape2D init_val with
    | none => .error .configMatrix
    | some (x, _y) =>
      if x ≤ 0 then .error .configMatrix
      else .ok { val := init_val, _last_tstep := x - 1, memory := memory }

/-- `time_steps()`: the number of rows currently stored. -/
def OneSpaceField.time_steps (f : OneSpaceField) : ℕ :=
  f.val.length

/-- `pos_steps()`: `self.val[0].shape[0]`, the width of the first stored
row. -/
def OneSpaceField.pos_steps (f : OneSpaceField) : ℕ :=
  f.val.headI.length

/-- `current_time_step()`: the absolute time counter `_last_tstep`. -/
def OneSpaceField.current_time_step (f : OneSpaceField) : ℕ :=
  f._last_tstep

/-- `update(newval)`.  Increments `_last_tstep`, then `vstack`s the new row
(raising when its length differs from the matrix width -- the increment has
already happened, so the error state is the old state with the counter
bumped), then drops the oldest row when `_last_tstep > memory`.  Returns
the object state after the call together with `true` when the call raised. -/
def OneSpaceField.update (f : OneSpaceField) (newval : List ℚ) :
    OneSpaceField × Bool :=
  let f1 : OneSpaceField := { f with _last_tstep := f._last_tstep + 1 }
  if newval.length = f.pos_steps then
    let v := f.val ++ [newval]
    ({ f1 with val := if f1.memory < f1._last_tstep then v.tail else v }, false)
  else (f1, true)

/-- Python row indexing `a[i]` on a list of rows: a negative `i` addresses
`length + i`; out of `[-length, length)` raises `IndexError`. -/
def pyRow (l : List (List ℚ)) (i : ℤ) : Except PyErr (List ℚ) :=
  let j : ℤ := if i < 0 then i + l.length else i
  if 0 ≤ j ∧ j < (l.length : ℤ) then .ok (l.getD j.toNat []) else .error .indexError

/-- `get_val_time(t)`.  Resolves the storage index: `t` itself while
`_last_tstep <= memory`, otherwise `t - _last_tstep + memory`; raises the
retention `ValueError` when the resolved index is negative while `t >= 0`;
otherwise indexes the stored matrix with Python semantics. -/
def OneSpaceField.get_val_time (f : OneSpaceField) (t : ℤ) :
    Except PyErr (List ℚ) :=
  let tstep : ℤ :=
    if f._last_tstep ≤ f.memory then t else t - f._last_tstep + f.memory
  if tstep < 0 ∧ 0 ≤ t then .error .retention
  else pyRow f.val tstep

/-- `get_val_pos(n)`: NumPy column access `self.val[:, n]`.  A negative `n`
addresses column `width + n`; out of `[-width, width)` raises `IndexError`;
otherwise returns the column across all stored rows, oldest first. -/
def OneSpaceField.get_val_pos (f : OneSpaceField) (n : ℤ) :
    Except PyErr (List ℚ) :=
  let w : ℤ := f.pos_steps
  let j : ℤ := if n < 0 then n + w else n
  if 0 ≤ j ∧ j < w then .ok (f.val.map (fun row => row.getD j.toNat 0))
  else .error .indexError

/-- `get_last()`: the field at the current time step. -/
def OneSpaceField.get_last (f : OneSpaceField) : Except PyErr (List ℚ) :=
  f.get_val_time f._last_tstep

/-- A sequence of `update` calls, keeping the object state of each call
(whether or not it raised, matching Python where the exception propagates
but the object keeps its mutated state). -/
def OneSpaceField.updates (f : OneSpaceField) (rows : List (List ℚ)) :
    OneSpaceField :=
  rows.foldl (fun g r => (g.update r).1) f

/-- Rectangularity: every row of the table has width `w`. -/
def Rect (a : List (List ℚ)) (w : ℕ) : Prop :=
  ∀ r ∈ a, r.length = w

instance (a : List (List ℚ)) (w : ℕ) : Decidable (Rect a w) :=
  List.decidableBAll _ a

/-- Storage extent after `k` appends onto an initial matrix of `x` rows
under retention bound `m`: grows until the absolute time exceeds `m`, then
stays at `max x (m + 1)`. -/
def extentAfter (x m k : ℕ) : ℕ :=
  min (x + k) (max x (m + 1))

/-! ### The simulation driver (src/simulation.py, `Simulation.run`)

The driver is modelled for the configuration the claims are about:
`anim=False, file=True`.  Its collaborators `PhyString` and `Particles` are
not among the embedded sources, so they enter as parameters, modelled from
the spec (see `runStep`). -/

/-- A line written to one of the two output text streams: the single header
line written right after opening the stream, or the data line for time
step `t` carrying the formatted payload. -/
inductive FLine (α : Type) where
  | header
  | data (t : ℕ) (payload : α)
deriving DecidableEq, Repr

/-- File-handle events of a run with file output enabled: opening the field
and particle streams, writing a line to either, closing either. -/
inductive FEvent where
  | openF
  | openP
  | writeF (l : FLine (List ℚ))
  | writeP (l : FLine (List ℕ))
  | closeF
  | closeP
deriving DecidableEq, Repr

/-- Driver state threaded through the time loop: the field buffer, the
number of Field Update Engine invocations so far, and the file events
performed so far (in order). -/
structure RunState where
  field : OneSpaceField
  calls : ℕ
  events : List FEvent
deriving DecidableEq, Repr

/-- One iteration of the driver loop body for step `t` (file output
enabled).  When `t > 1` the Field Update Engine advances one step.
Modelled from the spec: `PhyString.update` (the Field Update Engine) is not
among the embedded sources; per the spec it produces exactly one new field
row -- here `engine t` -- and appends it via the buffer's `update`, and
`Particles.list_pos` (the Particle Tracker) returns the cell indices
`tracker t`.  The driver then reads `get_val_time t` and writes one data
line to each stream. -/
def runStep (engine : ℕ → List ℚ) (tracker : ℕ → List ℕ)
    (st : RunState) (t : ℕ) : Except PyErr RunState :=
  let step1 : Except PyErr (OneSpaceField × ℕ) :=
    if 1 < t then
      let u := st.field.update (engine t)
      if u.2 then .error .shapeMismatch else .ok (u.1, st.calls + 1)
    else .ok (st.field, st.calls)
  match step1 with
  | .error e => .error e
  | .ok (fld, calls) =>
    match fld.get_val_time t with
    | .error e => .error e
    | .ok row =>
      .ok ⟨fld, calls,
        st.events ++ [.writeF (.data t row), .writeP (.data t (tracker t))]⟩

/-- The driver loop over the given list of step indices, aborting on the
first raised error (the Python `for` loop lets exceptions propagate). -/
def runLoop (engine : ℕ → List ℚ) (tracker : ℕ → List ℕ) :
    List ℕ → RunState → Except PyErr RunState
  | [], st => .ok st
  | t :: ts, st =>
    match runStep engine tracker st t with
    | .error e => .error e
    | .ok st' => runLoop engine tracker ts st'

/-- `Simulation.run(path, anim=False, file=True)`.  Modelled from the spec
for the missing collaborators: the seeded buffer `field0` comes from
`PhyString` and the `engine` / `tracker` parameters stand for the Field
Update Engine and Particle Tracker contracts.  The run opens the two output
files, writes one header line to each, iterates the time loop over steps
`0 .. N-1`, and afterwards only logs "output file finalisation..." --
it performs no close on either handle. -/
def Simulation.run (field0 : OneSpaceField) (engine : ℕ → List ℚ)
    (tracker : ℕ → List ℕ) (N : ℕ) : Except PyErr RunState :=
  runLoop engine tracker (List.range N)
    ⟨field0, 0, [.openF, .openP, .writeF .header, .writeP .header]⟩

/-- The lines written to the field stream, in write order. -/
def fieldLines (evs : List FEvent) : List (FLine (List ℚ)) :=
  evs.filterMap (fun e => match e with | .writeF l => some l | _ => none)

/-- The lines written to the particle stream, in write order. -/
def particleLines (evs : List FEvent) : List (FLine (List ℕ)) :=
  evs.filterMap (fun e => match e with | .writeP l => some l | _ => none)

/-- The full time series of a run: the two seed rows, then the engine's row
for each later step. -/
def histRow (s0 s1 : List ℚ) (engine : ℕ → List ℚ) (t : ℕ) : List ℚ :=
  if t = 0 then s0 else if t = 1 then s1 else engine t

/-! ### Concrete fixtures (used by counterexamples and witnesses) -/

/-- The buffer obtained from five width-1 seed rows with retention bound 3:
its absolute time index `4` already exceeds the bound at construction. -/
def fieldFive : OneSpaceField :=
  ⟨[[0], [1], [2], [3], [4]], 4, 3⟩

/-- The buffer of the spec's concrete scenario: two width-3 zero seed rows,
retention bound 3. -/
def seedField : OneSpaceField :=
  ⟨[[0, 0, 0], [0, 0, 0]], 1, 3⟩

/-- The three appends of the spec's concrete scenario. -/
def stepRows : List (List ℚ) :=
  [[1, 1, 1], [2, 2, 2], [3, 3, 3]]

/-- A concrete Field Update Engine: every advanced step yields `[1, 1, 1]`. -/
def engineC : ℕ → List ℚ := fun _ => [1, 1, 1]

/-- A concrete Particle Tracker: no particles at any step. -/
def trackerC : ℕ → List ℕ := fun _ => []

/-- The state of a concrete five-step run (file output enabled). -/
def runFiveSt : RunState :=
  (Simulation.run seedField engineC trackerC 5).toOption.getD ⟨seedField, 0, []⟩

/-! ### Basic lemmas about the buffer operations -/

theorem update_snoc (f0 : OneSpaceField) (rows : List (List ℚ)) (r : List ℚ) :
    f0.updates (rows ++ [r]) = ((f0.updates rows).update r).1 := by
  simp [OneSpaceField.updates, List.foldl_append]

theorem update_of_len_eq (g : OneSpaceField) (r : List ℚ)
    (h : r.length = g.pos_steps) :
    g.update r =
      ({ val := if g.memory < g._last_tstep + 1 then (g.val ++ [r]).tail
                else g.val ++ [r],
         _last_tstep := g._last_tstep + 1, memory := g.memory }, false) := by
  simp [OneSpaceField.update, h]

theorem update_of_len_ne (g : OneSpaceField) (r : List ℚ)
    (h : r.length ≠ g.pos_steps) :
    g.update r = ({ g with _last_tstep := g._last_tstep + 1 }, true) := by
  simp [OneSpaceField.update, h]

theorem update_tstep (g : OneSpaceField) (r : List ℚ) :
    (g.update r).1._last_tstep = g._last_tstep + 1 := by
  by_cases h : r.length = g.pos_steps
  · rw [update_of_len_eq g r h]
  · rw [update_of_len_ne g r h]

theorem pos_steps_of_rect (g : OneSpaceField) (w : ℕ)
    (hw : Rect g.val w) (hne : g.val ≠ []) : g.pos_steps = w := by
  obtain ⟨a, as, hv⟩ := List.exists_cons_of_ne_nil hne
  rw [OneSpaceField.pos_steps, hv]
  exact hw a (by rw [hv]; exact List.mem_cons_self a as)

theorem npShape2D_eq_none_iff (a : List (List ℚ)) :
    npShape2D a = none ↔ a = [] ∨ ¬ Rect a a.headI.length := by
  cases a with
  | nil => simp [npShape2D]
  | cons r rs =>
    simp only [npShape2D, List.headI]
    constructor
    · intro h
      right
      intro hrect
      have : rs.all (fun s => s.length = r.length) = true := by
        rw [List.all_eq_true]
        intro s hs
        simpa using hrect s (List.mem_cons_of_mem _ hs)
      rw [this] at h
      simp at h
    · intro h
      rcases h with h | h
      · exact absurd h (by simp)
      · have : ¬ rs.all (fun s => s.length = r.length) = true := by
          intro hall
          apply h
          intro s hs
          rcases List.mem_cons.1 hs with rfl | hs'
          · rfl
          · simpa using (List.all_eq_true.1 hall) s hs'
        simp only [Bool.not_eq_true] at this
        rw [this]
        simp

theorem init_ok_iff (iv : List (List ℚ)) (m : ℕ) (f0 : OneSpaceField) :
    OneSpaceField.init iv m = .ok f0 ↔
      3 ≤ m ∧ iv ≠ [] ∧ Rect iv iv.headI.length ∧
        f0 = ⟨iv, iv.length - 1, m⟩ := by
  unfold OneSpaceField.init
  by_cases hm : m < 3
  · simp [hm]
  · simp only [if_neg hm]
    rcases hsh : npShape2D iv with _ | ⟨x, y⟩
    · have := (npShape2D_eq_none_iff iv).1 hsh
      simp only [Except.error.injEq]
      constructor
      · intro h
        exact absurd h (by simp)
      · rintro ⟨-, hne, hrect, -⟩
        rcases this with h | h
        · exact absurd h hne
        · exact absurd hrect h
    · -- shape is some (x, y): iv = r :: rs, rectangular, x = iv.length
      cases iv with
      | nil => simp [npShape2D] at hsh
      | cons r rs =>
        have hrect : Rect (r :: rs) (r :: rs).headI.length := by
          simp only [npShape2D] at hsh
          by_cases hall : rs.all (fun s => s.length = r.length) = true
          · intro s hs
            rcases List.mem_cons.1 hs with rfl | hs'
            · rfl
            · simpa using (List.all_eq_true.1 hall) s hs'
          · simp only [Bool.not_eq_true] at hall
            rw [hall] at hsh
            simp at hsh
        have hx : x = rs.length + 1 := by
          simp only [npShape2D] at hsh
          by_cases hall : rs.all (fun s => s.length = r.length) = true
          · rw [hall] at hsh
            simp at hsh
            omega
          · simp only [Bool.not_eq_true] at hall
            rw [hall] at hsh
            simp at hsh
        subst hx
        simp only [if_neg (by omega : ¬ rs.length + 1 ≤ 0), Except.ok.injEq]
        constructor
        · intro h
          exact ⟨by omega, by simp, hrect, by rw [← h]; simp⟩
        · rintro ⟨-, -, -, h⟩
          rw [h]
          simp

/-- Closed form of the buffer state after any sequence of width-preserving
appends: the time counter advances by one per append and the stored matrix
is the suffix of the full history whose length is `extentAfter`. -/
theorem updates_closed_form (iv : List (List ℚ)) (w m : ℕ)
    (hiv : Rect iv w) (hx : iv ≠ []) :
    ∀ rows : List (List ℚ), (∀ r ∈ rows, r.length = w) →
      (OneSpaceField.updates ⟨iv, iv.length - 1, m⟩ rows).memory = m ∧
      (OneSpaceField.updates ⟨iv, iv.length - 1, m⟩ rows)._last_tstep
        = iv.length - 1 + rows.length ∧
      (OneSpaceField.updates ⟨iv, iv.length - 1, m⟩ rows).val
        = (iv ++ rows).drop
            (iv.length + rows.length - extentAfter iv.length m rows.length) := by
  have hx1 : 1 ≤ iv.length := List.length_pos.2 hx
  intro rows
  induction rows using List.reverseRecOn with
  | nil =>
    intro _
    refine ⟨rfl, by simp [OneSpaceField.updates], ?_⟩
    have he : extentAfter iv.length m 0 = iv.length := by
      unfold extentAfter
      omega
    simp [OneSpaceField.updates, he]
  | append_singleton rs r ih =>
    intro hr
    have hrs : ∀ s ∈ rs, s.length = w := fun s hs => hr s (by simp [hs])
    have hrw : r.length = w := hr r (by simp)
    obtain ⟨ihm, iht, ihv⟩ := ih hrs
    set g := OneSpaceField.updates ⟨iv, iv.length - 1, m⟩ rs with hg
    have hEle : extentAfter iv.length m rs.length ≤ iv.length + rs.length := by
      unfold extentAfter
      omega
    have hE1 : 1 ≤ extentAfter iv.length m rs.length := by
      unfold extentAfter
      omega
    have hlen : g.val.length = extentAfter iv.length m rs.length := by
      rw [ihv, List.length_drop, List.length_append]
      omega
    have hne : g.val ≠ [] := by
      intro hnil
      rw [hnil] at hlen
      simp at hlen
      omega
    have hrect : Rect g.val w := by
      intro s hs
      have hmem : s ∈ iv ++ rs := by
        rw [ihv] at hs
        exact List.drop_subset _ _ hs
      rcases List.mem_append.1 hmem with h | h
      · exact hiv s h
      · exact hrs s h
    have hps : g.pos_steps = w := pos_steps_of_rect g w hrect hne
    rw [update_snoc, ← hg, update_of_len_eq g r (by rw [hps, hrw])]
    dsimp only
    refine ⟨ihm, ?_, ?_⟩
    · simp only [List.length_append, List.length_singleton]
      omega
    · have hcat : g.val ++ [r] = ((iv ++ rs) ++ [r]).drop
          (iv.length + rs.length - extentAfter iv.length m rs.length) := by
        rw [List.drop_append_of_le_length (by simp)]
        rw [ihv]
      simp only [List.length_append, List.length_singleton]
      by_cases hcase : g.memory < g._last_tstep + 1
      · rw [if_pos hcase, hcat, List.tail_drop, List.append_assoc]
        congr 1
        rw [ihm] at hcase
        rw [iht] at hcase
        unfold extentAfter
        omega
      · rw [if_neg hcase, hcat, List.append_assoc]
        congr 1
        rw [ihm] at hcase
        rw [iht] at hcase
        unfold extentAfter
        omega

theorem pyRow_ok (l : List (List ℚ)) (i : ℤ) (h0 : 0 ≤ i)
    (hlt : i < (l.length : ℤ)) : pyRow l i = .ok (l.getD i.toNat []) := by
  simp only [pyRow]
  rw [if_neg (by omega : ¬ i < 0)]
  rw [if_pos ⟨h0, hlt⟩]

/-- Retained random access: when the seed has at most `m + 1` rows, every
still-stored absolute time `t` resolves to the history row for time `t`.
The window condition is phrased additively:
`t` is retained iff `x + k ≤ t + extent` and `t + 1 ≤ x + k`, where
`x + k` is the history length (equal to `CurrentTime() + 1`). -/
theorem get_val_time_retained (iv : List (List ℚ)) (w m : ℕ)
    (hiv : Rect iv w) (hx : iv ≠ []) (hx2 : iv.length ≤ m + 1)
    (rows : List (List ℚ)) (hr : ∀ r ∈ rows, r.length = w) (t : ℕ)
    (hlow : iv.length + rows.length
        ≤ t + min (iv.length + rows.length) (m + 1))
    (hhigh : t + 1 ≤ iv.length + rows.length) :
    (OneSpaceField.updates ⟨iv, iv.length - 1, m⟩ rows).get_val_time t
      = .ok ((iv ++ rows).getD t []) := by
  have hx1 : 1 ≤ iv.length := List.length_pos.2 hx
  obtain ⟨hm, ht, hv⟩ := updates_closed_form iv w m hiv hx rows hr
  set f := OneSpaceField.updates ⟨iv, iv.length - 1, m⟩ rows with hf
  have hlenh : (iv ++ rows).length = iv.length + rows.length := by simp
  simp only [OneSpaceField.get_val_time, hm, ht]
  by_cases hwarm : iv.length - 1 + rows.length ≤ m
  · rw [if_pos hwarm]
    have hE : extentAfter iv.length m rows.length = iv.length + rows.length := by
      unfold extentAfter
      omega
    have hv0 : f.val = iv ++ rows := by
      rw [hv, hE]
      simp
    rw [if_neg (by omega : ¬ ((t:ℤ) < 0 ∧ 0 ≤ (t:ℤ)))]
    rw [hv0, pyRow_ok _ _ (by omega) (by rw [hlenh]; omega)]
    norm_num
  · rw [if_neg hwarm]
    have hE : extentAfter iv.length m rows.length = m + 1 := by
      unfold extentAfter
      omega
    have htlow : iv.length + rows.length ≤ t + m + 1 := by omega
    have hvlen : f.val.length = m + 1 := by
      rw [hv, hE, List.length_drop, hlenh]
      omega
    rw [if_neg (by omega :
      ¬ ((t:ℤ) - ((iv.length - 1 + rows.length : ℕ) : ℤ) + (m:ℤ) < 0 ∧ 0 ≤ (t:ℤ)))]
    rw [pyRow_ok _ _ (by omega) (by rw [hvlen]; omega)]
    congr 1
    rw [hv, hE]
    rw [List.getD_eq_getElem?_getD, List.getD_eq_getElem?_getD, List.getElem?_drop]
    congr 2
    omega

/-- After any width-preserving append sequence the stored matrix is
non-empty, rectangular of the seed width, and `pos_steps` is that width. -/
theorem updates_pos_steps (iv : List (List ℚ)) (w m : ℕ)
    (hiv : Rect iv w) (hx : iv ≠ [])
    (rows : List (List ℚ)) (hr : ∀ r ∈ rows, r.length = w) :
    (OneSpaceField.updates ⟨iv, iv.length - 1, m⟩ rows).val ≠ [] ∧
    Rect (OneSpaceField.updates ⟨iv, iv.length - 1, m⟩ rows).val w ∧
    (OneSpaceField.updates ⟨iv, iv.length - 1, m⟩ rows).pos_steps = w := by
  have hx1 : 1 ≤ iv.length := List.length_pos.2 hx
  obtain ⟨hm, ht, hv⟩ := updates_closed_form iv w m hiv hx rows hr
  set g := OneSpaceField.updates ⟨iv, iv.length - 1, m⟩ rows with hg
  have hEle : extentAfter iv.length m rows.length ≤ iv.length + rows.length := by
    unfold extentAfter
    omega
  have hE1 : 1 ≤ extentAfter iv.length m rows.length := by
    unfold extentAfter
    omega
  have hlen : g.val.length = extentAfter iv.length m rows.length := by
    rw [hv, List.length_drop, List.length_append]
    omega
  have hne : g.val ≠ [] := by
    intro hnil
    rw [hnil] at hlen
    simp at hlen
    omega
  have hrect : Rect g.val w := by
    intro s hs
    have hmem : s ∈ iv ++ rows := by
      rw [hv] at hs
      exact List.drop_subset _ _ hs
    rcases List.mem_append.1 hmem with h | h
    · exact hiv s h
    · exact hr s h
  exact ⟨hne, hrect, pos_steps_of_rect g w hrect hne⟩

/-- The number of stored rows after a width-preserving append sequence is
exactly `extentAfter`. -/
theorem updates_time_steps (iv : List (List ℚ)) (w m : ℕ)
    (hiv : Rect iv w) (hx : iv ≠ [])
    (rows : List (List ℚ)) (hr : ∀ r ∈ rows, r.length = w) :
    (OneSpaceField.updates ⟨iv, iv.length - 1, m⟩ rows).time_steps
      = extentAfter iv.length m rows.length := by
  obtain ⟨-, -, hv⟩ := updates_closed_form iv w m hiv hx rows hr
  rw [OneSpaceField.time_steps, hv, List.length_drop, List.length_append]
  unfold extentAfter
  omega

/-! ### Claim C10 -/

/-- C10: `update` is not atomic on failure: appending a row whose length
differs from the buffer's width raises from the row-stacking step, but only
after `_last_tstep` has been incremented, so the failed call leaves the
stored rows and `time_steps()` unchanged while `current_time_step()` has
increased by 1. -/
theorem c10_update_not_atomic (f : OneSpaceField) (newval : List ℚ)
    (h : newval.length ≠ f.pos_steps) :
    (f.update newval).2 = true ∧
    (f.update newval).1.val = f.val ∧
    (f.update newval).1.time_steps = f.time_steps ∧
    (f.update newval).1.current_time_step = f.current_time_step + 1 := by
  rw [update_of_len_ne f newval h]
  exact ⟨rfl, rfl, rfl, rfl⟩

theorem c10_witness :
    (seedField.update [1, 1]).2 = true ∧
    (seedField.update [1, 1]).1.val = seedField.val ∧
    (seedField.update [1, 1]).1.time_steps = seedField.time_steps ∧
    (seedField.update [1, 1]).1.current_time_step
      = seedField.current_time_step + 1 :=
  c10_update_not_atomic seedField [1, 1] (by decide)

/-! ### Claim C6 -/

/-- C6 counterexample: a rectangular table of zero-length rows is accepted
by the constructor (`np.array([[],[]])` has shape `(2, 0)`, so the shape
unpacking succeeds and `x = 2 > 0`), contradicting the claim that a
zero-length row fails with `ConfigurationError`. -/
theorem c6_construction_cex :
    OneSpaceField.init [[], []] 3 = .ok ⟨[[], []], 1, 3⟩ := rfl

/-- C6 (amended): construction fails with the memory `ConfigurationError`
when `memory_bound < 3`, fails with the matrix `ConfigurationError` when
`initial_rows` is empty or not rectangular, and for all other inputs --
including rectangular tables of zero-length rows -- succeeds and stores a
copy of `initial_rows` with the time counter at `row_count - 1`. -/
theorem c6_construction_validation (iv : List (List ℚ)) (m : ℕ) :
    OneSpaceField.init iv m =
      (if m < 3 then .error .configMemory
       else if iv = [] ∨ ¬ Rect iv iv.headI.length then .error .configMatrix
       else .ok ⟨iv, iv.length - 1, m⟩) := by
  by_cases hm : m < 3
  · simp [OneSpaceField.init, hm]
  · rw [if_neg hm]
    by_cases hbad : iv = [] ∨ ¬ Rect iv iv.headI.length
    · rw [if_pos hbad]
      have hnone := (npShape2D_eq_none_iff iv).2 hbad
      simp [OneSpaceField.init, hnone, hm]
    · rw [if_neg hbad]
      push_neg at hbad
      exact (init_ok_iff iv m _).2 ⟨by omega, hbad.1, hbad.2, rfl⟩

/-! ### Claim C7 -/

/-- C7 counterexample: on a width-3 buffer, `get_val_pos (-1)` succeeds
(NumPy negative indexing addresses the last column), contradicting the
claim that every negative spatial index fails with `IndexError`. -/
theorem c7_spatial_cex :
    seedField.get_val_pos (-1) = .ok [0, 0] ∧ (-1 : ℤ) < 0 :=
  ⟨rfl, by decide⟩

/-- C7 (amended): `get_val_pos n` fails with `IndexError` iff `n` is
outside `[-width, width)`; a negative `n` with `-width ≤ n` succeeds and
returns the column `n + width` (NumPy negative indexing). -/
theorem c7_spatial_domain (f : OneSpaceField) (n : ℤ) :
    (f.get_val_pos n = .error .indexError ↔
      n < -(f.pos_steps : ℤ) ∨ (f.pos_steps : ℤ) ≤ n) ∧
    (-(f.pos_steps : ℤ) ≤ n → n < 0 →
      f.get_val_pos n
        = .ok (f.val.map (fun row => row.getD (n + f.pos_steps).toNat 0))) := by
  constructor
  · simp only [OneSpaceField.get_val_pos]
    by_cases hn : n < 0
    · rw [if_pos hn]
      by_cases hin : 0 ≤ n + (f.pos_steps : ℤ) ∧ n + (f.pos_steps : ℤ) < (f.pos_steps : ℤ)
      · rw [if_pos hin]
        constructor
        · intro h
          exact absurd h (by simp)
        · intro h
          omega
      · rw [if_neg hin]
        constructor
        · intro _
          omega
        · intro _
          rfl
    · rw [if_neg hn]
      by_cases hin : 0 ≤ n ∧ n < (f.pos_steps : ℤ)
      · rw [if_pos hin]
        constructor
        · intro h
          exact absurd h (by simp)
        · intro h
          omega
      · rw [if_neg hin]
        constructor
        · intro _
          omega
        · intro _
          rfl
  · intro h1 h2
    simp only [OneSpaceField.get_val_pos]
    rw [if_pos h2, if_pos (by omega : 0 ≤ n + (f.pos_steps : ℤ) ∧
      n + (f.pos_steps : ℤ) < (f.pos_steps : ℤ))]

theorem c7_witness :
    (seedField.get_val_pos (-4) = .error .indexError ↔
      (-4 : ℤ) < -(seedField.pos_steps : ℤ) ∨ (seedField.pos_steps : ℤ) ≤ -4) ∧
    (-(seedField.pos_steps : ℤ) ≤ -4 → (-4 : ℤ) < 0 →
      seedField.get_val_pos (-4)
        = .ok (seedField.val.map
            (fun row => row.getD ((-4 : ℤ) + (seedField.pos_steps : ℤ)).toNat 0))) :=
  c7_spatial_domain seedField (-4)

/-! ### Claim C4 -/

/-- C4: after a valid construction the absolute time index equals
`initial_row_count - 1`; after `k` width-preserving appends it equals
`initial_row_count - 1 + k`; and every single append (successful or not)
increases it by exactly 1, so it never decreases and is never reused. -/
theorem c4_time_index (iv rows : List (List ℚ)) (m : ℕ) (f0 : OneSpaceField)
    (hinit : OneSpaceField.init iv m = .ok f0)
    (hr : ∀ r ∈ rows, r.length = iv.headI.length) :
    f0.current_time_step = iv.length - 1 ∧
    (f0.updates rows).current_time_step = iv.length - 1 + rows.length ∧
    ∀ (g : OneSpaceField) (r : List ℚ),
      (g.update r).1.current_time_step = g.current_time_step + 1 := by
  obtain ⟨hm3, hne, hrect, hf0⟩ := (init_ok_iff iv m f0).1 hinit
  subst hf0
  obtain ⟨-, ht, -⟩ := updates_closed_form iv iv.headI.length m hrect hne rows hr
  exact ⟨rfl, ht, fun g r => update_tstep g r⟩

theorem c4_witness :
    seedField.current_time_step
      = ([[0, 0, 0], [0, 0, 0]] : List (List ℚ)).length - 1 ∧
    (seedField.updates stepRows).current_time_step
      = ([[0, 0, 0], [0, 0, 0]] : List (List ℚ)).length - 1 + stepRows.length ∧
    ∀ (g : OneSpaceField) (r : List ℚ),
      (g.update r).1.current_time_step = g.current_time_step + 1 :=
  c4_time_index [[0, 0, 0], [0, 0, 0]] stepRows 3 seedField rfl (by decide)

/-! ### Claim C1 -/

/-- C1 counterexample: constructed from five width-1 seed rows with
`memory_bound = 3`, the buffer is already past the bound
(`CurrentTime() = 4 > 3`); after one further append it stays in steady
state with a constant extent of `5` rows, not `memory_bound + 1 = 4`. -/
theorem c1_storage_cex :
    OneSpaceField.init [[0], [1], [2], [3], [4]] 3 = .ok fieldFive ∧
    3 < (fieldFive.updates [[9]]).current_time_step ∧
    (fieldFive.updates [[9]]).time_steps = 5 ∧
    (fieldFive.updates [[9]]).time_steps ≠ 3 + 1 :=
  ⟨rfl, by decide, by decide, by decide⟩

/-- C1 (amended): while `CurrentTime() ≤ memory_bound` no eviction occurs
and `TimeExtent()` equals `initial_row_count` plus the appends so far; once
`CurrentTime() > memory_bound` every further append evicts exactly the
oldest retained row and `TimeExtent()` stays constant -- at the value
`max initial_row_count (memory_bound + 1)`, which is `memory_bound + 1`
exactly when `initial_row_count ≤ memory_bound + 1`. -/
theorem c1_storage_extent (iv rows : List (List ℚ)) (m : ℕ)
    (f0 : OneSpaceField)
    (hinit : OneSpaceField.init iv m = .ok f0)
    (hr : ∀ r ∈ rows, r.length = iv.headI.length) :
    ((f0.updates rows).current_time_step ≤ m →
      (f0.updates rows).time_steps = iv.length + rows.length) ∧
    (m < (f0.updates rows).current_time_step →
      (f0.updates rows).time_steps = max iv.length (m + 1) ∧
      ∀ r2 : List ℚ, r2.length = iv.headI.length →
        ((f0.updates rows).update r2).2 = false ∧
        ((f0.updates rows).update r2).1.val
          = (f0.updates rows).val.tail ++ [r2] ∧
        ((f0.updates rows).update r2).1.time_steps
          = (f0.updates rows).time_steps) := by
  obtain ⟨hm3, hne, hrect, hf0⟩ := (init_ok_iff iv m f0).1 hinit
  subst hf0
  have hx1 : 1 ≤ iv.length := List.length_pos.2 hne
  obtain ⟨hm, ht, hv⟩ :=
    updates_closed_form iv iv.headI.length m hrect hne rows hr
  obtain ⟨hvne, hvrect, hps⟩ :=
    updates_pos_steps iv iv.headI.length m hrect hne rows hr
  have hts := updates_time_steps iv iv.headI.length m hrect hne rows hr
  set f := OneSpaceField.updates ⟨iv, iv.length - 1, m⟩ rows with hf
  constructor
  · intro hwarm
    rw [hts]
    simp only [OneSpaceField.current_time_step] at hwarm
    rw [ht] at hwarm
    unfold extentAfter
    omega
  · intro hsteady
    simp only [OneSpaceField.current_time_step] at hsteady
    rw [ht] at hsteady
    refine ⟨by rw [hts]; unfold extentAfter; omega, ?_⟩
    intro r2 hr2
    rw [update_of_len_eq f r2 (by rw [hps, hr2])]
    have hcond : f.memory < f._last_tstep + 1 := by
      rw [hm, ht]
      omega
    refine ⟨rfl, ?_, ?_⟩
    · dsimp only
      rw [if_pos hcond]
      obtain ⟨a, as, hva⟩ := List.exists_cons_of_ne_nil hvne
      rw [hva]
      simp
    · dsimp only [OneSpaceField.time_steps]
      rw [if_pos hcond]
      rw [List.length_tail, List.length_append]
      simp

theorem c1_witness :
    ((seedField.updates stepRows).current_time_step ≤ 3 →
      (seedField.updates stepRows).time_steps
        = ([[0, 0, 0], [0, 0, 0]] : List (List ℚ)).length + stepRows.length) ∧
    (3 < (seedField.updates stepRows).current_time_step →
      (seedField.updates stepRows).time_steps
        = max ([[0, 0, 0], [0, 0, 0]] : List (List ℚ)).length (3 + 1) ∧
      ∀ r2 : List ℚ,
        r2.length = ([[0, 0, 0], [0, 0, 0]] : List (List ℚ)).headI.length →
        ((seedField.updates stepRows).update r2).2 = false ∧
        ((seedField.updates stepRows).update r2).1.val
          = (seedField.updates stepRows).val.tail ++ [r2] ∧
        ((seedField.updates stepRows).update r2).1.time_steps
          = (seedField.updates stepRows).time_steps) :=
  c1_storage_extent [[0, 0, 0], [0, 0, 0]] stepRows 3 seedField rfl (by decide)

/-! ### Claim C2 -/

/-- C2: in steady state (`CurrentTime() > memory_bound`) the row at
`CurrentTime() - memory_bound` is still retrievable, the row at
`CurrentTime() - memory_bound - 1` fails with the retention error, and more
generally every `t ≥ 0` whose resolved storage index
`t - CurrentTime() + memory_bound` is negative fails with the retention
error. -/
theorem c2_retention_boundary (iv rows : List (List ℚ)) (m : ℕ)
    (f0 : OneSpaceField)
    (hinit : OneSpaceField.init iv m = .ok f0)
    (hr : ∀ r ∈ rows, r.length = iv.headI.length)
    (hsteady : m < (f0.updates rows).current_time_step) :
    (∃ row, (f0.updates rows).get_val_time
        (((f0.updates rows).current_time_step : ℤ) - m) = .ok row) ∧
    (f0.updates rows).get_val_time
        (((f0.updates rows).current_time_step : ℤ) - m - 1)
      = .error .retention ∧
    ∀ t : ℤ, 0 ≤ t →
      t - ((f0.updates rows).current_time_step : ℤ) + m < 0 →
      (f0.updates rows).get_val_time t = .error .retention := by
  obtain ⟨hm3, hne, hrect, hf0⟩ := (init_ok_iff iv m f0).1 hinit
  subst hf0
  obtain ⟨hm, ht, hv⟩ :=
    updates_closed_form iv iv.headI.length m hrect hne rows hr
  obtain ⟨hvne, -, -⟩ :=
    updates_pos_steps iv iv.headI.length m hrect hne rows hr
  set f := OneSpaceField.updates ⟨iv, iv.length - 1, m⟩ rows with hf
  simp only [OneSpaceField.current_time_step] at hsteady ⊢
  have hwarmF : ¬ (f._last_tstep ≤ m) := by omega
  have hvpos : 0 < f.val.length := List.length_pos.2 hvne
  have hok : f.get_val_time ((f._last_tstep : ℤ) - m)
      = .ok (f.val.getD ((((f._last_tstep : ℤ) - m) - f._last_tstep + m)).toNat []) := by
    simp only [OneSpaceField.get_val_time, hm]
    rw [if_neg hwarmF]
    rw [if_neg (by omega :
      ¬ (((f._last_tstep : ℤ) - m) - f._last_tstep + m < 0 ∧
         0 ≤ (f._last_tstep : ℤ) - m))]
    exact pyRow_ok _ _ (by omega) (by omega)
  refine ⟨⟨_, hok⟩, ?_, ?_⟩
  · simp only [OneSpaceField.get_val_time, hm]
    rw [if_neg hwarmF]
    rw [if_pos (⟨by omega, by omega⟩ :
      (((f._last_tstep : ℤ) - m - 1) - f._last_tstep + m < 0 ∧
       0 ≤ (f._last_tstep : ℤ) - m - 1))]
  · intro t ht0 htneg
    simp only [OneSpaceField.get_val_time, hm]
    rw [if_neg hwarmF]
    rw [if_pos ⟨htneg, ht0⟩]

theorem c2_witness :
    (∃ row, (seedField.updates stepRows).get_val_time
        (((seedField.updates stepRows).current_time_step : ℤ) - 3)
      = .ok row) ∧
    (seedField.updates stepRows).get_val_time
        (((seedField.updates stepRows).current_time_step : ℤ) - 3 - 1)
      = .error .retention ∧
    ∀ t : ℤ, 0 ≤ t →
      t - ((seedField.updates stepRows).current_time_step : ℤ) + 3 < 0 →
      (seedField.updates stepRows).get_val_time t = .error .retention :=
  c2_retention_boundary [[0, 0, 0], [0, 0, 0]] stepRows 3 seedField rfl
    (by decide) (by decide)

/-! ### Claim C3 -/

/-- C3 counterexample: constructed from five width-1 seed rows with
`memory_bound = 3` and no appends, every absolute time `0..4` is still
stored, yet `get_val_time 4` returns the seed row for time 3 instead of the
seed row for time 4 (the steady-state offset formula is applied although
nothing has been evicted). -/
theorem c3_round_trip_cex :
    OneSpaceField.init [[0], [1], [2], [3], [4]] 3 = .ok fieldFive ∧
    fieldFive.current_time_step = 4 ∧
    fieldFive.time_steps = 5 ∧
    fieldFive.get_val_time 4 = .ok [3] ∧
    ¬ ([3] : List ℚ) = [4] :=
  ⟨rfl, rfl, rfl, rfl, by decide⟩

/-- C3 (amended): when additionally `initial_row_count ≤ memory_bound + 1`
(so the steady-state window is exactly `memory_bound + 1` rows), every
still-retained absolute time `t ≤ CurrentTime()` round-trips:
`get_val_time t` returns exactly the row appended (or seeded) for time `t`,
values unchanged. -/
theorem c3_round_trip (iv rows : List (List ℚ)) (m : ℕ) (f0 : OneSpaceField)
    (hinit : OneSpaceField.init iv m = .ok f0)
    (hseed : iv.length ≤ m + 1)
    (hr : ∀ r ∈ rows, r.length = iv.headI.length) (t : ℕ)
    (hlow : (f0.updates rows).current_time_step + 1
        ≤ t + (f0.updates rows).time_steps)
    (hhigh : t ≤ (f0.updates rows).current_time_step) :
    (f0.updates rows).get_val_time t = .ok ((iv ++ rows).getD t []) := by
  obtain ⟨hm3, hne, hrect, hf0⟩ := (init_ok_iff iv m f0).1 hinit
  subst hf0
  have hx1 : 1 ≤ iv.length := List.length_pos.2 hne
  obtain ⟨-, ht, -⟩ :=
    updates_closed_form iv iv.headI.length m hrect hne rows hr
  have hts := updates_time_steps iv iv.headI.length m hrect hne rows hr
  simp only [OneSpaceField.current_time_step] at hlow hhigh
  rw [ht] at hlow hhigh
  rw [hts] at hlow
  unfold extentAfter at hlow
  exact get_val_time_retained iv iv.headI.length m hrect hne hseed rows hr t
    (by omega) (by omega)

theorem c3_witness :
    (seedField.updates stepRows).get_val_time (1 : ℕ)
      = .ok (([[0, 0, 0], [0, 0, 0]] ++ stepRows).getD 1 []) :=
  c3_round_trip [[0, 0, 0], [0, 0, 0]] stepRows 3 seedField rfl (by decide)
    (by decide) 1 (by decide) (by decide)

/-! ### Claim C5 -/

/-- C5 counterexample: on the buffer from five width-1 seed rows with
`memory_bound = 3` (nothing evicted, oldest retained time 0),
`get_val_pos 0` lists all five stored values, with offset `i = 0` holding
the row for time 0; but `get_val_time (0 + 0)` fails with the retention
error, so the claimed agreement
`ColumnAtPosition(n)[i] = RowAtTime(oldest_retained_time + i)[n]` cannot
hold at `n = 0, i = 0`. -/
theorem c5_column_row_cex :
    OneSpaceField.init [[0], [1], [2], [3], [4]] 3 = .ok fieldFive ∧
    fieldFive.current_time_step + 1 - fieldFive.time_steps = 0 ∧
    fieldFive.get_val_pos 0 = .ok [0, 1, 2, 3, 4] ∧
    fieldFive.get_val_time ((0 + 0 : ℕ) : ℤ) = .error .retention :=
  ⟨rfl, rfl, rfl, rfl⟩

/-- C5 (amended): when additionally `initial_row_count ≤ memory_bound + 1`,
for every spatial index `n < width` and every offset `i` into the current
storage window, the column at `n` and the row at
`oldest_retained_time + i` agree: `ColumnAtPosition(n)[i]`
equals `RowAtTime(oldest_retained_time + i)[n]`. -/
theorem c5_column_row_agreement (iv rows : List (List ℚ)) (m : ℕ)
    (f0 : OneSpaceField)
    (hinit : OneSpaceField.init iv m = .ok f0)
    (hseed : iv.length ≤ m + 1)
    (hr : ∀ r ∈ rows, r.length = iv.headI.length) (n i : ℕ)
    (hn : n < (f0.updates rows).pos_steps)
    (hi : i < (f0.updates rows).time_steps) :
    ∃ col row,
      (f0.updates rows).get_val_pos (n : ℤ) = .ok col ∧
      (f0.updates rows).get_val_time
        (((f0.updates rows).current_time_step + 1
            - (f0.updates rows).time_steps + i : ℕ) : ℤ) = .ok row ∧
      col.getD i 0 = row.getD n 0 := by
  obtain ⟨hm3, hne, hrect, hf0⟩ := (init_ok_iff iv m f0).1 hinit
  subst hf0
  have hx1 : 1 ≤ iv.length := List.length_pos.2 hne
  obtain ⟨-, ht, hv⟩ :=
    updates_closed_form iv iv.headI.length m hrect hne rows hr
  obtain ⟨hvne, hvrect, hps⟩ :=
    updates_pos_steps iv iv.headI.length m hrect hne rows hr
  have hts := updates_time_steps iv iv.headI.length m hrect hne rows hr
  set f := OneSpaceField.updates ⟨iv, iv.length - 1, m⟩ rows with hf
  have hEle : extentAfter iv.length m rows.length ≤ iv.length + rows.length := by
    unfold extentAfter
    omega
  have hE1 : 1 ≤ extentAfter iv.length m rows.length := by
    unfold extentAfter
    omega
  -- the column query succeeds
  have hcol : f.get_val_pos (n : ℤ)
      = .ok (f.val.map (fun row => row.getD ((n : ℤ)).toNat 0)) := by
    simp only [OneSpaceField.get_val_pos, hps]
    rw [if_neg (by omega : ¬ ((n : ℤ) < 0))]
    rw [if_pos (⟨by omega, by omega⟩ :
      (0 ≤ (n : ℤ) ∧ (n : ℤ) < (iv.headI.length : ℤ)))]
  -- the oldest retained absolute time, as stated, is the drop offset
  have hoff : f.current_time_step + 1 - f.time_steps + i
      = iv.length + rows.length - extentAfter iv.length m rows.length + i := by
    simp only [OneSpaceField.current_time_step]
    rw [ht, hts]
    omega
  have hrow := get_val_time_retained iv iv.headI.length m hrect hne hseed rows hr
    (iv.length + rows.length - extentAfter iv.length m rows.length + i)
    (by rw [hts] at hi; unfold extentAfter at *; omega)
    (by rw [hts] at hi; omega)
  rw [← hf] at hrow
  refine ⟨_, _, hcol, by rw [hoff]; exact hrow, ?_⟩
  -- agreement of the two getD reads
  have hnn : ((n : ℤ)).toNat = n := by omega
  rw [hnn]
  have hcolD : (f.val.map (fun row => row.getD n 0)).getD i 0
      = (f.val.getD i []).getD n 0 := by
    have h0 : (0 : ℚ) = (([] : List ℚ).getD n 0) := by simp
    rw [show (f.val.map (fun row => row.getD n 0)).getD i 0
        = (f.val.map (fun row => row.getD n 0)).getD i (([] : List ℚ).getD n 0) from by simp]
    rw [List.getD_map]
  rw [hcolD]
  congr 1
  rw [hv]
  rw [List.getD_eq_getElem?_getD, List.getD_eq_getElem?_getD, List.getElem?_drop]

theorem c5_witness :
    ∃ col row,
      (seedField.updates stepRows).get_val_pos ((1 : ℕ) : ℤ) = .ok col ∧
      (seedField.updates stepRows).get_val_time
        ((((seedField.updates stepRows).current_time_step + 1
            - (seedField.updates stepRows).time_steps + 2 : ℕ)) : ℤ) = .ok row ∧
      col.getD 2 0 = row.getD 1 0 :=
  c5_column_row_agreement [[0, 0, 0], [0, 0, 0]] stepRows 3 seedField rfl
    (by decide) (by decide) 1 2 (by decide) (by decide)

/-! ### Driver lemmas -/

theorem runLoop_cons_ok (engine : ℕ → List ℚ) (tracker : ℕ → List ℕ)
    (t : ℕ) (ts : List ℕ) (st st1 : RunState)
    (h : runStep engine tracker st t = .ok st1) :
    runLoop engine tracker (t :: ts) st = runLoop engine tracker ts st1 := by
  simp only [runLoop, h]

/-- A successful driver-loop iteration appends exactly one data line per
stream (and nothing else) to the event list. -/
theorem runStep_events (engine : ℕ → List ℚ) (tracker : ℕ → List ℕ)
    (st : RunState) (t : ℕ) (st1 : RunState)
    (h : runStep engine tracker st t = .ok st1) :
    ∃ r, st1.events = st.events ++
      [FEvent.writeF (.data t r), FEvent.writeP (.data t (tracker t))] := by
  simp only [runStep] at h
  by_cases h1 : 1 < t
  · rw [if_pos h1] at h
    by_cases h2 : (st.field.update (engine t)).2 = true
    · rw [if_pos h2] at h
      simp at h
    · rw [if_neg h2] at h
      dsimp only at h
      cases hget : (st.field.update (engine t)).1.get_val_time t with
      | error e =>
        rw [hget] at h
        simp at h
      | ok row =>
        rw [hget] at h
        refine ⟨row, ?_⟩
        have h' := Except.ok.inj h
        rw [← h']
  · rw [if_neg h1] at h
    dsimp only at h
    cases hget : st.field.get_val_time t with
    | error e =>
      rw [hget] at h
      simp at h
    | ok row =>
      rw [hget] at h
      refine ⟨row, ?_⟩
      have h' := Except.ok.inj h
      rw [← h']

/-- A successful driver loop never removes events, and introduces only
write events -- in particular it closes nothing. -/
theorem runLoop_no_close (engine : ℕ → List ℚ) (tracker : ℕ → List ℕ) :
    ∀ (ts : List ℕ) (st st' : RunState),
      runLoop engine tracker ts st = .ok st' →
      (∀ e ∈ st.events, e ∈ st'.events) ∧
      (FEvent.closeF ∈ st'.events → FEvent.closeF ∈ st.events) ∧
      (FEvent.closeP ∈ st'.events → FEvent.closeP ∈ st.events) := by
  intro ts
  induction ts with
  | nil =>
    intro st st' h
    simp only [runLoop] at h
    obtain rfl := Except.ok.inj h
    exact ⟨fun e he => he, id, id⟩
  | cons a as ih =>
    intro st st' h
    simp only [runLoop] at h
    cases hs : runStep engine tracker st a with
    | error e =>
      rw [hs] at h
      simp at h
    | ok st1 =>
      rw [hs] at h
      obtain ⟨h1, h2, h3⟩ := ih st1 st' h
      obtain ⟨r, hev⟩ := runStep_events engine tracker st a st1 hs
      refine ⟨fun e he => h1 e (by rw [hev]; exact List.mem_append_left _ he),
        ?_, ?_⟩
      · intro hc
        have hin := h2 hc
        rw [hev] at hin
        rcases List.mem_append.1 hin with h' | h'
        · exact h'
        · simp at h'
      · intro hc
        have hin := h3 hc
        rw [hev] at hin
        rcases List.mem_append.1 hin with h' | h'
        · exact h'
        · simp at h'

/-- Index into the run's history list: seed rows at 0 and 1, engine rows
after. -/
theorem hist_getD (s0 s1 : List ℚ) (engine : ℕ → List ℚ) (t k : ℕ)
    (hk : t + 1 ≤ 2 + k) :
    ([s0, s1] ++ (List.range' 2 k).map engine).getD t []
      = histRow s0 s1 engine t := by
  by_cases h0 : t = 0
  · subst h0
    simp [histRow]
  by_cases h1 : t = 1
  · subst h1
    simp [histRow]
  · rw [List.getD_eq_getElem?_getD, List.getElem?_append]
    rw [if_neg (by simp; omega)]
    have hlt : t - ([s0, s1] : List (List ℚ)).length
        < ((List.range' 2 k).map engine).length := by
      simp
      omega
    rw [List.getElem?_eq_getElem hlt, Option.getD_some, List.getElem_map,
      List.getElem_range']
    simp only [histRow, if_neg h0, if_neg h1]
    congr 1
    simp only [List.length_cons, List.length_nil]
    omega

/-! ### Claim C9 -/

/-- C9: the run opens both output file handles (and writes the headers),
but never closes either -- the completed run's event trace contains the two
opens and no close event, because `Simulation.run` contains no `close()`
call (it only logs "output file finalisation...") and no try/finally or
with-block; this contradicts the claim that both handles are released by
the end of `Finalizing` (and on abort). -/
theorem c9_run_never_closes (field0 : OneSpaceField) (engine : ℕ → List ℚ)
    (tracker : ℕ → List ℕ) (N : ℕ) (st : RunState)
    (h : Simulation.run field0 engine tracker N = .ok st) :
    FEvent.openF ∈ st.events ∧ FEvent.openP ∈ st.events ∧
    FEvent.closeF ∉ st.events ∧ FEvent.closeP ∉ st.events := by
  unfold Simulation.run at h
  obtain ⟨h1, h2, h3⟩ := runLoop_no_close engine tracker _ _ _ h
  refine ⟨h1 _ (by simp), h1 _ (by simp), ?_, ?_⟩
  · intro hc
    have hin := h2 hc
    simp at hin
  · intro hc
    have hin := h3 hc
    simp at hin

theorem c9_witness :
    FEvent.openF ∈ runFiveSt.events ∧ FEvent.openP ∈ runFiveSt.events ∧
    FEvent.closeF ∉ runFiveSt.events ∧ FEvent.closeP ∉ runFiveSt.events :=
  c9_run_never_closes seedField engineC trackerC 5 runFiveSt rfl

theorem fieldLines_append (a b : List FEvent) :
    fieldLines (a ++ b) = fieldLines a ++ fieldLines b :=
  List.filterMap_append a b _

theorem particleLines_append (a b : List FEvent) :
    particleLines (a ++ b) = particleLines a ++ particleLines b :=
  List.filterMap_append a b _

theorem fieldLines_pair (t : ℕ) (r : List ℚ) (p : List ℕ) :
    fieldLines [FEvent.writeF (.data t r), FEvent.writeP (.data t p)]
      = [.data t r] := rfl

theorem particleLines_pair (t : ℕ) (r : List ℚ) (p : List ℕ) :
    particleLines [FEvent.writeF (.data t r), FEvent.writeP (.data t p)]
      = [.data t p] := rfl

/-- Loop invariant for the driver from step 2 on: processing steps
`t, …, t + len - 1` succeeds, invokes the engine exactly once per step
(appending the engine's row to the buffer), and writes exactly one data
line per step to each stream, in step order. -/
theorem runLoop_invariant (s0 s1 : List ℚ) (m : ℕ) (hm : 3 ≤ m)
    (hs1 : s1.length = s0.length)
    (engine : ℕ → List ℚ) (he : ∀ u, (engine u).length = s0.length)
    (tracker : ℕ → List ℕ) :
    ∀ (len t : ℕ) (st : RunState), 2 ≤ t →
      st.field = OneSpaceField.updates
          ⟨[s0, s1], ([s0, s1] : List (List ℚ)).length - 1, m⟩
          ((List.range' 2 (t - 2)).map engine) →
      ∃ st', runLoop engine tracker (List.range' t len) st = .ok st' ∧
        st'.field = OneSpaceField.updates
            ⟨[s0, s1], ([s0, s1] : List (List ℚ)).length - 1, m⟩
            ((List.range' 2 (t + len - 2)).map engine) ∧
        st'.calls = st.calls + len ∧
        fieldLines st'.events = fieldLines st.events
            ++ (List.range' t len).map
                (fun u => FLine.data u (histRow s0 s1 engine u)) ∧
        particleLines st'.events = particleLines st.events
            ++ (List.range' t len).map (fun u => FLine.data u (tracker u)) := by
  have hrect : Rect [s0, s1] s0.length := by
    intro r hr
    simp at hr
    rcases hr with rfl | rfl
    · rfl
    · exact hs1
  have hne2 : ([s0, s1] : List (List ℚ)) ≠ [] := by simp
  intro len
  induction len with
  | zero =>
    intro t st ht hfield
    refine ⟨st, rfl, ?_, by omega, by simp, by simp⟩
    rw [hfield]
    norm_num
  | succ len ih =>
    intro t st ht hfield
    have ht2 : 1 < t := by omega
    have hrows : ∀ r ∈ (List.range' 2 (t - 2)).map engine,
        r.length = s0.length := by
      intro r hr
      obtain ⟨u, -, rfl⟩ := List.mem_map.1 hr
      exact he u
    obtain ⟨-, -, hps⟩ :=
      updates_pos_steps [s0, s1] s0.length m hrect hne2 _ hrows
    have hupd := update_of_len_eq st.field (engine t)
      (by rw [hfield, hps]; exact he t)
    have hb : (st.field.update (engine t)).2 = false := by rw [hupd]
    have hF' : (st.field.update (engine t)).1
        = OneSpaceField.updates
            ⟨[s0, s1], ([s0, s1] : List (List ℚ)).length - 1, m⟩
            ((List.range' 2 (t + 1 - 2)).map engine) := by
      rw [hfield, ← update_snoc]
      congr 1
      rw [show t + 1 - 2 = (t - 2) + 1 by omega, List.range'_concat,
        List.map_append, show 2 + 1 * (t - 2) = t by omega]
      simp
    have hget : (st.field.update (engine t)).1.get_val_time (t : ℤ)
        = .ok (histRow s0 s1 engine t) := by
      rw [hF']
      have hrows' : ∀ r ∈ (List.range' 2 (t + 1 - 2)).map engine,
          r.length = s0.length := by
        intro r hr
        obtain ⟨u, -, rfl⟩ := List.mem_map.1 hr
        exact he u
      have h := get_val_time_retained [s0, s1] s0.length m hrect hne2
        (by simp only [List.length_cons, List.length_nil]; omega) _ hrows' t
        (by simp only [List.length_cons, List.length_nil, List.length_map,
              List.length_range']
            omega)
        (by simp only [List.length_cons, List.length_nil, List.length_map,
              List.length_range']
            omega)
      rw [h, hist_getD s0 s1 engine t (t + 1 - 2) (by omega)]
    have hstep : runStep engine tracker st t
        = .ok ⟨(st.field.update (engine t)).1, st.calls + 1,
            st.events ++ [.writeF (.data t (histRow s0 s1 engine t)),
                          .writeP (.data t (tracker t))]⟩ := by
      simp only [runStep, if_pos ht2, hb, Bool.false_eq_true, if_false]
      rw [hget]
    rw [List.range'_succ, runLoop_cons_ok engine tracker t _ st _ hstep]
    obtain ⟨st', hrun, hfld, hcalls, hfl, hpl⟩ := ih (t + 1)
      ⟨(st.field.update (engine t)).1, st.calls + 1,
        st.events ++ [.writeF (.data t (histRow s0 s1 engine t)),
                      .writeP (.data t (tracker t))]⟩
      (by omega) (by exact hF')
    refine ⟨st', hrun, ?_, ?_, ?_, ?_⟩
    · rw [hfld, show t + 1 + len - 2 = t + (len + 1) - 2 by omega]
    · rw [hcalls]
      dsimp only
      omega
    · rw [hfl]
      dsimp only
      rw [fieldLines_append, fieldLines_pair, List.map_cons]
      simp
    · rw [hpl]
      dsimp only
      rw [particleLines_append, particleLines_pair, List.map_cons]
      simp

/-! ### Claim C8 -/

/-- C8: in a run of `N ≥ 2` time steps with file output enabled, the Field
Update Engine is invoked (and one row appended) exactly for the steps
`t > 1`, i.e. `N - 2` times, and each output stream receives exactly one
header line followed by exactly `N` data lines in increasing step order
(step `t`'s line before step `t+1`'s). -/
theorem c8_driver_contract (s0 s1 : List ℚ) (m : ℕ) (f0 : OneSpaceField)
    (hinit : OneSpaceField.init [s0, s1] m = .ok f0)
    (engine : ℕ → List ℚ) (he : ∀ u, (engine u).length = s0.length)
    (tracker : ℕ → List ℕ) (N : ℕ) (hN : 2 ≤ N) :
    ∃ st, Simulation.run f0 engine tracker N = .ok st ∧
      st.calls = N - 2 ∧
      fieldLines st.events
        = .header :: (List.range N).map
            (fun u => FLine.data u (histRow s0 s1 engine u)) ∧
      particleLines st.events
        = .header :: (List.range N).map (fun u => FLine.data u (tracker u)) ∧
      FEvent.openF ∈ st.events ∧ FEvent.openP ∈ st.events := by
  obtain ⟨hm3, hne2, hrect0, hf0⟩ := (init_ok_iff [s0, s1] m f0).1 hinit
  subst hf0
  have hrect : Rect [s0, s1] s0.length := hrect0
  have hs1 : s1.length = s0.length := hrect s1 (by simp)
  have hsplit : ∀ k : ℕ, List.range (k + 2) = 0 :: 1 :: List.range' 2 k := by
    intro k
    rw [List.range_eq_range', show k + 2 = (k + 1) + 1 by omega,
      List.range'_succ, List.range'_succ]
  have hNr : List.range N = 0 :: 1 :: List.range' 2 (N - 2) := by
    have h := hsplit (N - 2)
    rw [show N - 2 + 2 = N by omega] at h
    exact h
  set fld0 : OneSpaceField :=
    ⟨[s0, s1], ([s0, s1] : List (List ℚ)).length - 1, m⟩ with hfld0
  have hget0 : fld0.get_val_time ((0 : ℕ) : ℤ)
      = .ok (histRow s0 s1 engine 0) := by
    have h := get_val_time_retained [s0, s1] s0.length m hrect (by simp)
      (by simp only [List.length_cons, List.length_nil]; omega) [] (by simp) 0
      (by simp only [List.length_cons, List.length_nil, List.length_nil]; omega)
      (by simp only [List.length_cons, List.length_nil]; omega)
    exact h
  have hget1 : fld0.get_val_time ((1 : ℕ) : ℤ)
      = .ok (histRow s0 s1 engine 1) := by
    have h := get_val_time_retained [s0, s1] s0.length m hrect (by simp)
      (by simp only [List.length_cons, List.length_nil]; omega) [] (by simp) 1
      (by simp only [List.length_cons, List.length_nil, List.length_nil]; omega)
      (by simp only [List.length_cons, List.length_nil]; omega)
    exact h
  have hstep0 : runStep engine tracker
      ⟨fld0, 0, [.openF, .openP, .writeF .header, .writeP .header]⟩ 0
      = .ok ⟨fld0, 0, [.openF, .openP, .writeF .header, .writeP .header]
          ++ [.writeF (.data 0 (histRow s0 s1 engine 0)),
              .writeP (.data 0 (tracker 0))]⟩ := by
    simp only [runStep]
    rw [if_neg (by omega : ¬ (1 : ℕ) < 0)]
    dsimp only
    rw [hget0]
  have hstep1 : runStep engine tracker
      ⟨fld0, 0, [.openF, .openP, .writeF .header, .writeP .header]
          ++ [.writeF (.data 0 (histRow s0 s1 engine 0)),
              .writeP (.data 0 (tracker 0))]⟩ 1
      = .ok ⟨fld0, 0, ([.openF, .openP, .writeF .header, .writeP .header]
          ++ [.writeF (.data 0 (histRow s0 s1 engine 0)),
              .writeP (.data 0 (tracker 0))])
          ++ [.writeF (.data 1 (histRow s0 s1 engine 1)),
              .writeP (.data 1 (tracker 1))]⟩ := by
    simp only [runStep]
    rw [if_neg (by omega : ¬ (1 : ℕ) < 1)]
    dsimp only
    rw [hget1]
  obtain ⟨st', hrun, hfld, hcalls, hfl, hpl⟩ :=
    runLoop_invariant s0 s1 m hm3 hs1 engine he tracker (N - 2) 2
      ⟨fld0, 0, ([.openF, .openP, .writeF .header, .writeP .header]
          ++ [.writeF (.data 0 (histRow s0 s1 engine 0)),
              .writeP (.data 0 (tracker 0))])
          ++ [.writeF (.data 1 (histRow s0 s1 engine 1)),
              .writeP (.data 1 (tracker 1))]⟩
      (by omega) (by rfl)
  obtain ⟨hsub, -, -⟩ := runLoop_no_close engine tracker _ _ _ hrun
  refine ⟨st', ?_, ?_, ?_, ?_, ?_, ?_⟩
  · unfold Simulation.run
    rw [hNr]
    rw [runLoop_cons_ok engine tracker 0 _ _ _ hstep0]
    rw [runLoop_cons_ok engine tracker 1 _ _ _ hstep1]
    exact hrun
  · rw [hcalls]
    dsimp only
    omega
  · rw [hfl, hNr]
    dsimp only
    rw [fieldLines_append, fieldLines_append]
    simp [fieldLines]
  · rw [hpl, hNr]
    dsimp only
    rw [particleLines_append, particleLines_append]
    simp [particleLines]
  · exact hsub _ (by simp)
  · exact hsub _ (by simp)

theorem c8_witness :
    ∃ st, Simulation.run seedField engineC trackerC 5 = .ok st ∧
      st.calls = 5 - 2 ∧
      fieldLines st.events
        = .header :: (List.range 5).map
            (fun u => FLine.data u (histRow [0, 0, 0] [0, 0, 0] engineC u)) ∧
      particleLines st.events
        = .header :: (List.range 5).map (fun u => FLine.data u (trackerC u)) ∧
      FEvent.openF ∈ st.events ∧ FEvent.openP ∈ st.events :=
  c8_driver_contract [0, 0, 0] [0, 0, 0] 3 seedField rfl engineC
    (fun _ => rfl) trackerC 5 (by omega)

end QuantumString
